import Mathlib

/-!
Verification of the DSA indexing pipeline (lexicon → forward index →
backward/inverted index with barrel sharding).

Words are modelled as `String`, documents as token lists (the output of the
external tokenizer `\b[a-zA-Z]{2,30}\b`), forward-index records as a document
name together with its `[word_id, position]` pair list, and the in-memory
inverted index as insertion-ordered association lists, mirroring Python
`dict`/`defaultdict` semantics.
-/

namespace DSA

/-! ### Lexicon builder (`lexicon_builder.py`) -/

/-- Python `str.lower()`: lowercase character by character. -/
def strToLower (s : String) : String := ⟨s.data.map Char.toLower⟩

/-- Vowel set used by the gibberish detector. -/
def isVowel (c : Char) : Bool := c = 'a' ∨ c = 'e' ∨ c = 'i' ∨ c = 'o' ∨ c = 'u'

/-- Longest run of consecutive characters satisfying `p`, computed with the
streak/max loop of `_is_gibberish`. -/
def maxRun (p : Char → Bool) (l : List Char) : Nat :=
  (l.foldl (fun acc c => if p c then (acc.1 + 1, max acc.2 (acc.1 + 1)) else (0, acc.2))
    ((0, 0) : Nat × Nat)).2

/-- The `word[i] == word[i+1] == word[i+2]` scan of `_is_gibberish`. -/
def hasTripleRepeat : List Char → Bool
  | a :: b :: c :: rest => (a = b ∧ b = c : Bool) || hasTripleRepeat (b :: c :: rest)
  | _ => false

/-- `_is_gibberish`: consonant run > 5, vowel run > 4, a character repeated three
times consecutively, or no vowel in a word longer than 3 characters. -/
def isGibberish (w : String) : Bool :=
  if maxRun (fun c => !(isVowel c)) w.data > 5 then true
  else if maxRun isVowel w.data > 4 then true
  else if hasTripleRepeat w.data then true
  else if w.data.length > 3 && !(w.data.any isVowel) then true
  else false

/-- `_is_valid_word`: lowercase, require 2–30 alphabetic characters, accept
dictionary words, otherwise reject gibberish. -/
def isValidWord (dict : List String) (word : String) : Bool :=
  let w := strToLower word
  if !(2 ≤ w.data.length && w.data.length ≤ 30 && w.data.all Char.isAlpha) then false
  else if !dict.isEmpty && dict.contains w then true
  else if isGibberish w then false
  else true

/-- `_process_file`: lowercase each token of one document and keep the valid
ones (set semantics are restored by the `dedup` in `buildLexicon`). -/
def processFileTokens (dict : List String) (tokens : List String) : List String :=
  (tokens.map strToLower).filter (isValidWord dict)

/-- `LexiconBuilder.build`: an empty file set aborts with no lexicon; otherwise
union all per-file word sets, sort, and assign ids 1..N in sorted order. -/
def buildLexicon (dict : List String) (docs : List (List String)) :
    Option (List (String × Nat)) :=
  if docs.isEmpty then none
  else
    let allWords := ((docs.map (processFileTokens dict)).foldl (· ++ ·) []).dedup
    let sortedWords := allWords.mergeSort
    some (sortedWords.enum.map (fun p => (p.2, p.1 + 1)))

/-! ### Forward index builder (`foward_indexing.py`) -/

/-- The `for position, word in enumerate(words)` loop of `_process_single_file`:
emit `(word_id, position)` for every token found in the lexicon, count the
tokens that miss. -/
def fiLoop (lexicon : List (String × Nat)) : Nat → List String → List (Nat × Nat) × Nat
  | _, [] => ([], 0)
  | pos, t :: rest =>
    let r := fiLoop lexicon (pos + 1) rest
    match lexicon.lookup (strToLower t) with
    | some id => ((id, pos) :: r.1, r.2)
    | none => (r.1, r.2 + 1)

/-- Forward index of one document: the emitted pair list and the unresolved
(`words_skipped`) counter. -/
def buildForwardIndex (lexicon : List (String × Nat)) (tokens : List String) :
    List (Nat × Nat) × Nat :=
  fiLoop lexicon 0 tokens

/-- `_process_single_file`: a readable document yields the persisted record
`{doc_name: forward_index}` and success; a read failure yields no record and
failure. -/
def processSingleFile (lexicon : List (String × Nat)) (docName : String)
    (content : Option (List String)) : Option (String × List (Nat × Nat)) × Bool :=
  match content with
  | none => (none, false)
  | some tokens => (some (docName, (buildForwardIndex lexicon tokens).1), true)

/-! ### Barrel addressing (`_get_barrel_name`) -/

/-- `_get_barrel_name`: `(word + 'aaa')[:3].lower()`. -/
def getBarrelName (word : String) : String :=
  ⟨((word.data ++ ['a', 'a', 'a']).take 3).map Char.toLower⟩

/-- Modelled from the spec wording of §4.4: the first three characters of the
lowercased word, right-padded with `'a'` to length 3. Used only to compare the
source function against the specified one. -/
def barrelKeySpec (word : String) : String :=
  let l := (word.data.map Char.toLower).take 3
  ⟨l ++ List.replicate (3 - l.length) 'a'⟩

/-! ### Backward (inverted) index builder (`backward_indexing.py`) -/

/-- One forward-index record as persisted by the forward stage: the document
name and its ordered `[word_id, position]` pairs. -/
structure FwdRecord where
  doc : String
  pairs : List (Nat × Nat)
deriving DecidableEq, Repr

/-- Inner postings of one word id: document name → ordered position list,
insertion ordered like a Python `defaultdict(list)`. -/
abbrev Inner := List (String × List Nat)

/-- The in-memory inverted index: word id → inner postings, insertion ordered
like `defaultdict(lambda: defaultdict(list))`. -/
abbrev Inv := List (Nat × Inner)

/-- `self.inverted_index[word_id][doc_name].append(position)`, inner level:
append `p` to the list of `d`, creating the entry at the end if absent. -/
def appendPos : Inner → String → Nat → Inner
  | [], d, p => [(d, [p])]
  | (d', ps) :: rest, d, p =>
    if d' = d then (d', ps ++ [p]) :: rest else (d', ps) :: appendPos rest d p

/-- `self.inverted_index[word_id][doc_name].append(position)`, outer level. -/
def addPair : Inv → Nat → String → Nat → Inv
  | [], w, d, p => [(w, [(d, [p])])]
  | (w', inner) :: rest, w, d, p =>
    if w' = w then (w', appendPos inner d p) :: rest
    else (w', inner) :: addPair rest w d p

/-- The `for word_id, position in forward_index` loop of
`_process_forward_index`. -/
def processRecord (inv : Inv) (r : FwdRecord) : Inv :=
  r.pairs.foldl (fun acc pr => addPair acc pr.1 r.doc pr.2) inv

/-- `_process_forward_index`: a parsed record is flipped into the inverted
structure and reported successful; a corrupted file leaves the index untouched
and reports failure. -/
def processForwardIndexFile (inv : Inv) (f : Option FwdRecord) : Inv × Bool :=
  match f with
  | some r => (processRecord inv r, true)
  | none => (inv, false)

/-- Aggregation over a list of well-formed records. -/
def processAll (records : List FwdRecord) : Inv :=
  records.foldl processRecord []

/-- The aggregation loop of `build_inverted_index`: fold every forward-index
file, counting the `successful` ones. -/
def buildInverted (files : List (Option FwdRecord)) : Inv × Nat :=
  files.foldl
    (fun acc f =>
      let r := processForwardIndexFile acc.1 f
      (r.1, acc.2 + if r.2 then 1 else 0))
    ([], 0)

/-- `self.id_to_word = {word_id: word for word, word_id in self.lexicon.items()}`:
the reversed pairs, reversed again so that `List.lookup` (first match) realises
the last-wins overwrite of a Python dict comprehension. -/
def idToWord (lex : List (String × Nat)) : List (Nat × String) :=
  (lex.map (fun p => (p.2, p.1))).reverse

/-- `word_id in self.id_to_word` / `self.id_to_word[word_id]`. -/
def lookupWord (lex : List (String × Nat)) (w : Nat) : Option String :=
  (idToWord lex).lookup w

/-- `barrels[barrel_name][str(word_id)] = dict(doc_positions)`: dict assignment
inside one barrel (overwrite in place, append if absent). -/
def dictInsert : List (Nat × Inner) → Nat → Inner → List (Nat × Inner)
  | [], w, inner => [(w, inner)]
  | (w', v) :: rest, w, inner =>
    if w' = w then (w', inner) :: rest else (w', v) :: dictInsert rest w inner

/-- `barrels[barrel_name][...] = ...`, outer `defaultdict(dict)` level. -/
def barrelInsert : List (String × List (Nat × Inner)) → String → Nat → Inner →
    List (String × List (Nat × Inner))
  | [], bname, w, inner => [(bname, [(w, inner)])]
  | (n, data) :: rest, bname, w, inner =>
    if n = bname then (n, dictInsert data w inner) :: rest
    else (n, data) :: barrelInsert rest bname w inner

/-- Barrel files: barrel name → barrel data, insertion ordered. -/
abbrev Barrels := List (String × List (Nat × Inner))

/-- The organizing loop of `_save_barrels`: a word id with no lexicon entry is
skipped; otherwise its postings go to the barrel named by its word. -/
def organizeBarrels (lex : List (String × Nat)) (inv : Inv) : Barrels :=
  inv.foldl
    (fun bs wi =>
      match lookupWord lex wi.1 with
      | none => bs
      | some word => barrelInsert bs (getBarrelName word) wi.1 wi.2)
    []

/-- `_save_barrels`: organize, then persist only non-empty barrels
(`if not barrel_data: continue`). -/
def savedBarrels (lex : List (String × Nat)) (inv : Inv) : Barrels :=
  (organizeBarrels lex inv).filter (fun b => !b.2.isEmpty)

/-- Postings recovered from the barrel files for a word id: the first barrel
whose data contains the id. -/
def recoverPostings (bs : Barrels) (w : Nat) : Option Inner :=
  bs.findSome? (fun b => b.2.lookup w)

/-- The positions of word id `w` inside one record, in pair order. -/
def wPositions (r : FwdRecord) (w : Nat) : List Nat :=
  r.pairs.filterMap (fun pr => if pr.1 = w then some pr.2 else none)

/-- Direct scan of all forward-index records for word id `w`: the documents in
which `w` occurs, each with its positions in original forward-index order. -/
def scanPostings (records : List FwdRecord) (w : Nat) : Inner :=
  records.filterMap (fun r =>
    let ps := wPositions r w
    if ps.isEmpty then none else some (r.doc, ps))

/-- Positions of word id `w` in document `d` across all records. -/
def docPositions (records : List FwdRecord) (w : Nat) (d : String) : List Nat :=
  (records.filter (fun r => r.doc = d)).flatMap (fun r => wPositions r w)

/-- Repeated `append` of positions for a fixed document, as performed by the
inversion loop while it walks one record. -/
def appendMany (inner : Inner) (d : String) (ps : List Nat) : Inner :=
  ps.foldl (fun acc p => appendPos acc d p) inner

/-- All word ids stored in any barrel. -/
def barrelIds (bs : Barrels) : List Nat :=
  (bs.map (fun b => b.2.map Prod.fst)).flatten

/-- Barrel-level per-document postings lookup: what a query-time reader gets
for word id `w` in document `d`. -/
def recoveredDocPositions (lex : List (String × Nat)) (records : List FwdRecord)
    (w : Nat) (d : String) : Option (List Nat) :=
  (recoverPostings (savedBarrels lex (processAll records)) w).bind
    (fun inner => inner.lookup d)

/-! ### Serialization model for barrel files -/

/-- Rendering of one position list, standing in for the JSON array bytes. -/
def serializePositions (ps : List Nat) : String :=
  "[" ++ String.intercalate ", " (ps.map toString) ++ "]"

/-- Rendering of one word id's inner postings object. -/
def serializeInner (inner : Inner) : String :=
  "\x7b" ++
    String.intercalate ", "
      (inner.map (fun di => "\"" ++ di.1 ++ "\": " ++ serializePositions di.2)) ++
  "\x7d"

/-- Rendering of one barrel file body, keys in insertion order as `json.dump`
writes them. -/
def serializeBarrelData (data : List (Nat × Inner)) : String :=
  "\x7b" ++
    String.intercalate ", "
      (data.map (fun wi => "\"" ++ toString wi.1 ++ "\": " ++ serializeInner wi.2)) ++
  "\x7d"

/-- The persisted barrel files: file name and byte content for every non-empty
barrel. -/
def serializeBarrels (lex : List (String × Nat)) (inv : Inv) : List (String × String) :=
  (savedBarrels lex inv).map
    (fun b => ("inverted_" ++ b.1 ++ ".json", serializeBarrelData b.2))

/-! ### Counting -/

/-- Total number of positions stored in one inner postings map. -/
def innerCount (inner : Inner) : Nat :=
  (inner.map (fun di => di.2.length)).sum

/-- Total number of positions stored under lexicon-resolving word ids of the
in-memory inverted index. -/
def invResolvedCount (lex : List (String × Nat)) (inv : Inv) : Nat :=
  (inv.map (fun wi => if (lookupWord lex wi.1).isSome then innerCount wi.2 else 0)).sum

/-- Total number of position entries across all barrels. -/
def barrelsPosCount (bs : Barrels) : Nat :=
  (bs.map (fun b => (b.2.map (fun wi => innerCount wi.2)).sum)).sum

/-- Number of forward-index pairs of one record whose word id resolves in the
lexicon. -/
def resolvedPairCount (lex : List (String × Nat)) (r : FwdRecord) : Nat :=
  (r.pairs.filter (fun pr => (lookupWord lex pr.1).isSome)).length

/-- Number of lexicon-resolving forward-index pairs across all records. -/
def resolvedPairs (lex : List (String × Nat)) (records : List FwdRecord) : Nat :=
  (records.map (resolvedPairCount lex)).sum

/-! ### Theorems -/

theorem toLower_a : Char.toLower 'a' = 'a' := by decide

/-- C3: for the token stream `["star","star","nebula","xyzzyqq"]` and lexicon
`{"star":1,"nebula":2}`, the forward index is `[[1,0],[1,1],[2,2]]` in token
order, the absent fourth token is dropped, and the unresolved counter is 1. -/
theorem c3_forward_index_fidelity :
    buildForwardIndex [("star", 1), ("nebula", 2)] ["star", "star", "nebula", "xyzzyqq"]
      = ([(1, 0), (1, 1), (2, 2)], 1) := by decide

/-- C4: the barrel key of every word is the first three characters of the
lowercased word right-padded with `'a'` to length 3 (so it depends only on the
word text), and in particular `"nebula" ↦ "neb"`, `"a" ↦ "aaa"`,
`"ab" ↦ "aba"`. -/
theorem c4_barrel_addressing :
    (∀ w : String, getBarrelName w = barrelKeySpec w) ∧
    getBarrelName "nebula" = "neb" ∧ getBarrelName "a" = "aaa" ∧
    getBarrelName "ab" = "aba" := by
  refine ⟨fun w => ?_, by decide, by decide, by decide⟩
  rcases w with ⟨l⟩
  rcases l with _ | ⟨a, _ | ⟨b, _ | ⟨c, rest⟩⟩⟩ <;>
    simp [getBarrelName, barrelKeySpec, toLower_a, List.take]

/-- C9: an empty input corpus aborts the lexicon build before any work and
produces no lexicon. -/
theorem c9_empty_corpus (dict : List String) :
    buildLexicon dict [] = none := rfl

theorem fiLoop_all_miss (lexicon : List (String × Nat)) :
    ∀ (tokens : List String) (pos : Nat),
      (∀ t ∈ tokens, lexicon.lookup (strToLower t) = none) →
      fiLoop lexicon pos tokens = ([], tokens.length) := by
  intro tokens
  induction tokens with
  | nil => intro pos _; rfl
  | cons t rest ih =>
    intro pos h
    have ht := h t (by simp)
    have hr := ih (pos + 1) (fun x hx => h x (by simp [hx]))
    simp [fiLoop, ht, hr]

/-- C10: a document none of whose tokens resolve in the lexicon (including an
empty document) still yields a well-formed record mapping the document name to
an empty pair array, and is counted as successfully processed. -/
theorem c10_empty_record (lexicon : List (String × Nat)) (docName : String)
    (tokens : List String)
    (h : ∀ t ∈ tokens, lexicon.lookup (strToLower t) = none) :
    processSingleFile lexicon docName (some tokens) = (some (docName, []), true) := by
  simp [processSingleFile, buildForwardIndex, fiLoop_all_miss lexicon tokens 0 h]

theorem map_add_one_range' : ∀ s n : Nat, (List.range' s n).map (· + 1) = List.range' (s + 1) n
  | _, 0 => rfl
  | s, n + 1 => by
    rw [List.range'_succ, List.range'_succ, List.map_cons, map_add_one_range' (s + 1) n]

theorem assign_map_fst (l : List String) :
    (l.enum.map (fun p => (p.2, p.1 + 1))).map Prod.fst = l := by
  rw [List.map_map]
  exact List.enumFrom_map_snd 0 l

theorem assign_map_snd (l : List String) :
    (l.enum.map (fun p => (p.2, p.1 + 1))).map Prod.snd = List.range' 1 l.length := by
  rw [List.map_map]
  have h1 : (Prod.snd ∘ fun p : Nat × String => (p.2, p.1 + 1)) =
      ((· + 1) ∘ Prod.fst) := rfl
  rw [h1, ← List.map_map, List.enum_eq_enumFrom, List.enumFrom_map_fst 0 l,
    map_add_one_range']

/-- C2: the built lexicon lists the accepted words in sorted order without
duplicates and assigns them the dense id range 1..N; rebuilding over identical
input yields the identical mapping. -/
theorem c2_lexicon_sorted_dense (dict : List String) (docs : List (List String))
    (h : docs ≠ []) :
    ∃ lex, buildLexicon dict docs = some lex ∧
      (lex.map Prod.fst).Sorted (· ≤ ·) ∧
      (lex.map Prod.fst).Nodup ∧
      (∀ w : String, w ∈ lex.map Prod.fst ↔
        w ∈ (docs.map (processFileTokens dict)).foldl (· ++ ·) []) ∧
      lex.map Prod.snd = List.range' 1 lex.length ∧
      (∀ docs2, docs2 = docs → buildLexicon dict docs2 = buildLexicon dict docs) := by
  have hne : docs.isEmpty = false := by
    cases docs with
    | nil => exact absurd rfl h
    | cons d rest => rfl
  have hbuild : buildLexicon dict docs =
      some (((((docs.map (processFileTokens dict)).foldl (· ++ ·) []).dedup.mergeSort).enum.map
        (fun p => (p.2, p.1 + 1)))) := by
    simp [buildLexicon, hne]
  refine ⟨_, hbuild, ?_, ?_, ?_, ?_, fun docs2 hd => by rw [hd]⟩
  · rw [assign_map_fst]
    exact List.sorted_mergeSort' _
  · rw [assign_map_fst]
    exact (List.mergeSort_perm _ _).nodup_iff.mpr (List.nodup_dedup _)
  · intro w
    rw [assign_map_fst, (List.mergeSort_perm _ _).mem_iff, List.mem_dedup]
  · rw [assign_map_snd, List.length_map, List.enum_eq_enumFrom, List.enumFrom_length]

/-- Witness for C2 at the corpus `[["star"]]` with an empty dictionary. -/
theorem c2_lexicon_sorted_dense_witness :
    ([["star"]] : List (List String)) ≠ [] ∧
    (∃ lex, buildLexicon [] [["star"]] = some lex ∧
      (lex.map Prod.fst).Sorted (· ≤ ·) ∧
      (lex.map Prod.fst).Nodup ∧
      (∀ w : String, w ∈ lex.map Prod.fst ↔
        w ∈ ([["star"]].map (processFileTokens [])).foldl (· ++ ·) []) ∧
      lex.map Prod.snd = List.range' 1 lex.length ∧
      (∀ docs2, docs2 = [["star"]] → buildLexicon [] docs2 = buildLexicon [] [["star"]])) :=
  ⟨by decide, c2_lexicon_sorted_dense [] [["star"]] (by decide)⟩

theorem contains_guard (dict : List String) (w : String) :
    (!dict.isEmpty && dict.contains w) = dict.contains w := by
  cases dict with
  | nil => rfl
  | cons d rest => simp

/-- C5: a normalized candidate (lowercase, alphabetic, 2–30 characters) is
accepted exactly when it is a dictionary word or passes the gibberish filter,
and the filter rejects exactly: a non-vowel run longer than 5, a vowel run
longer than 4, a character repeated three times consecutively, or no vowel in a
word longer than 3 characters. -/
theorem c5_word_acceptance (dict : List String) (w : String)
    (hlower : strToLower w = w)
    (hlen : 2 ≤ w.data.length ∧ w.data.length ≤ 30)
    (halpha : w.data.all Char.isAlpha = true) :
    (isValidWord dict w = true ↔ (w ∈ dict ∨ isGibberish w = false)) ∧
    (isGibberish w = true ↔
      (5 < maxRun (fun c => !(isVowel c)) w.data ∨ 4 < maxRun isVowel w.data ∨
        hasTripleRepeat w.data = true ∨
        (3 < w.data.length ∧ w.data.all (fun c => !(isVowel c)) = true))) := by
  have hall : (w.data.any isVowel = false) ↔ (w.data.all (fun c => !(isVowel c)) = true) := by
    simp [List.any_eq_true, List.all_eq_true]
  constructor
  · by_cases hc : w ∈ dict
    · have hne : dict.isEmpty = false := by
        cases dict with
        | nil => cases hc
        | cons d rest => rfl
      simp only [isValidWord, hlower, hlen.1, hlen.2, halpha, hne, List.contains,
        List.elem_eq_mem, hc, true_iff]
      simp [hc, hlen.1, hlen.2]
    · cases hg : isGibberish w <;>
        · simp only [isValidWord, hlower, List.contains, List.elem_eq_mem, hc, hg]
          simp [hc, hg, hlen.1, hlen.2, halpha]
          try exact ⟨hlen.1, hlen.2⟩
  · rw [isGibberish]
    split_ifs with h1 h2 h3 h4
    · simp only [true_iff]
      exact Or.inl h1
    · simp only [true_iff]
      exact Or.inr (Or.inl h2)
    · simp only [true_iff]
      exact Or.inr (Or.inr (Or.inl h3))
    · simp only [true_iff]
      simp only [Bool.and_eq_true, decide_eq_true_eq, Bool.not_eq_true'] at h4
      exact Or.inr (Or.inr (Or.inr ⟨h4.1, hall.mp h4.2⟩))
    · simp only [Bool.false_eq_true, false_iff]
      push_neg
      refine ⟨Nat.le_of_not_lt h1, Nat.le_of_not_lt h2, ?_, ?_⟩
      · simpa using h3
      · intro hlen3 hallv
        simp only [Bool.and_eq_true, decide_eq_true_eq, Bool.not_eq_true'] at h4
        exact h4 ⟨hlen3, hall.mpr hallv⟩

/-- Witness for C5 at the dictionary `["star"]` and the word `"qqa"`. -/
theorem c5_word_acceptance_witness :
    (strToLower "qqa" = "qqa" ∧ 2 ≤ "qqa".data.length ∧ "qqa".data.length ≤ 30 ∧
      "qqa".data.all Char.isAlpha = true) ∧
    ((isValidWord ["star"] "qqa" = true ↔
        ("qqa" ∈ ["star"] ∨ isGibberish "qqa" = false)) ∧
      (isGibberish "qqa" = true ↔
        (5 < maxRun (fun c => !(isVowel c)) "qqa".data ∨ 4 < maxRun isVowel "qqa".data ∨
          hasTripleRepeat "qqa".data = true ∨
          (3 < "qqa".data.length ∧ "qqa".data.all (fun c => !(isVowel c)) = true)))) :=
  ⟨⟨by decide, by decide, by decide, by decide⟩,
    c5_word_acceptance ["star"] "qqa" (by decide) ⟨by decide, by decide⟩ (by decide)⟩

theorem buildInverted_go (files : List (Option FwdRecord)) :
    ∀ (inv : Inv) (n : Nat),
      files.foldl
        (fun acc f =>
          let r := processForwardIndexFile acc.1 f
          (r.1, acc.2 + if r.2 then 1 else 0)) (inv, n)
      = ((files.filterMap id).foldl processRecord inv, n + (files.filterMap id).length) := by
  induction files with
  | nil => intro inv n; simp
  | cons f rest ih =>
    intro inv n
    cases f with
    | some r =>
      rw [List.foldl_cons]
      show List.foldl _ (processRecord inv r, n + 1) rest = _
      rw [ih (processRecord inv r) (n + 1)]
      simp only [List.filterMap_cons, id_eq, List.foldl_cons, List.length_cons,
        Prod.mk.injEq]
      exact ⟨trivial, by omega⟩
    | none =>
      rw [List.foldl_cons]
      show List.foldl _ (inv, n) rest = _
      rw [ih inv n]
      simp only [List.filterMap_cons, id_eq]

/-- C8: a corrupted forward-index file anywhere in the input is skipped without
discarding the other documents' postings — the resulting index and barrels are
those of the intact records alone — and the failure shows up only in the
success counter. -/
theorem c8_partial_failure_isolation (lex : List (String × Nat))
    (gs1 gs2 : List FwdRecord) :
    (buildInverted (gs1.map some ++ none :: gs2.map some)).1
        = processAll (gs1 ++ gs2) ∧
    (buildInverted (gs1.map some ++ none :: gs2.map some)).2
        = gs1.length + gs2.length ∧
    savedBarrels lex (buildInverted (gs1.map some ++ none :: gs2.map some)).1
        = savedBarrels lex (processAll (gs1 ++ gs2)) := by
  have hfm : (gs1.map some ++ none :: gs2.map some).filterMap id = gs1 ++ gs2 := by
    simp
  have h := buildInverted_go (gs1.map some ++ none :: gs2.map some) [] 0
  rw [hfm] at h
  have h1 : (buildInverted (gs1.map some ++ none :: gs2.map some)).1
      = processAll (gs1 ++ gs2) := by
    rw [buildInverted, h]; rfl
  refine ⟨h1, ?_, by rw [h1]⟩
  rw [buildInverted, h]
  simp

/-- Witness for C10 at the lexicon `{"star": 1}` and token stream `["qq"]`. -/
theorem c10_empty_record_witness :
    (∀ t ∈ (["qq"] : List String),
        ([("star", 1)] : List (String × Nat)).lookup (strToLower t) = none) ∧
    processSingleFile [("star", 1)] "doc7" (some ["qq"]) = (some ("doc7", []), true) :=
  ⟨by decide, c10_empty_record [("star", 1)] "doc7" ["qq"] (by decide)⟩

/-! ### Inversion lemmas -/

theorem lookup_not_mem {α β : Type} [BEq α] [LawfulBEq α] (l : List (α × β)) (a : α)
    (h : a ∉ l.map Prod.fst) : l.lookup a = none := by
  induction l with
  | nil => rfl
  | cons hd tl ih =>
    simp only [List.map_cons, List.mem_cons] at h
    push_neg at h
    have hb : (a == hd.1) = false := beq_eq_false_iff_ne.mpr h.1
    simp [List.lookup, hb, ih h.2]

theorem lookup_appendPos (d : String) (p : Nat) (d' : String) :
    ∀ inner : Inner,
      (appendPos inner d p).lookup d'
        = if d' = d then some (((inner.lookup d').getD []) ++ [p])
          else inner.lookup d'
  | [] => by
    by_cases h : d' = d
    · have hb : (d' == d) = true := by simp [h]
      simp [appendPos, List.lookup, hb, h]
    · have hb : (d' == d) = false := by simp [h]
      simp [appendPos, List.lookup, hb, h]
  | (d0, ps0) :: rest => by
    by_cases h0 : d0 = d
    · by_cases h : d' = d0
      · have hb : (d' == d0) = true := by simp [h]
        simp [appendPos, h0, List.lookup, hb, h.trans h0]
      · have hb : (d' == d0) = false := by simp [h]
        have hne : ¬d' = d := fun hh => h (hh.trans h0.symm)
        have hb2 : (d' == d) = false := by simp [hne]
        simp [appendPos, h0, List.lookup, hb, hb2, hne]
    · by_cases h : d' = d0
      · have hb : (d' == d0) = true := by simp [h]
        have hne : ¬d' = d := fun hh => h0 (h.symm.trans hh)
        simp [appendPos, h0, List.lookup, hb, hne]
      · have hb : (d' == d0) = false := by simp [h]
        simp [appendPos, h0, List.lookup, hb, lookup_appendPos d p d' rest]

theorem lookup_addPair (d : String) (p : Nat) (w' : Nat) :
    ∀ (inv : Inv) (w : Nat),
      (addPair inv w d p).lookup w'
        = if w' = w then some (appendPos ((inv.lookup w').getD []) d p)
          else inv.lookup w'
  | [], w => by
    by_cases h : w' = w
    · have hb : (w' == w) = true := by simp [h]
      simp [addPair, List.lookup, hb, h, appendPos]
    · have hb : (w' == w) = false := by simp [h]
      simp [addPair, List.lookup, hb, h]
  | (w0, inner0) :: rest, w => by
    by_cases h0 : w0 = w
    · by_cases h : w' = w0
      · have hb : (w' == w0) = true := by simp [h]
        simp [addPair, h0, List.lookup, hb, h.trans h0]
      · have hb : (w' == w0) = false := by simp [h]
        have hne : ¬w' = w := fun hh => h (hh.trans h0.symm)
        have hb2 : (w' == w) = false := by simp [hne]
        simp [addPair, h0, List.lookup, hb, hb2, hne]
    · by_cases h : w' = w0
      · have hb : (w' == w0) = true := by simp [h]
        have hne : ¬w' = w := fun hh => h0 (h.symm.trans hh)
        simp [addPair, h0, List.lookup, hb, hne]
      · have hb : (w' == w0) = false := by simp [h]
        simp [addPair, h0, List.lookup, hb, lookup_addPair d p w' rest w]

theorem appendPos_not_mem (d : String) (p : Nat) :
    ∀ inner : Inner, d ∉ inner.map Prod.fst →
      appendPos inner d p = inner ++ [(d, [p])]
  | [], _ => rfl
  | (d0, ps0) :: rest, h => by
    simp only [List.map_cons, List.mem_cons] at h
    push_neg at h
    have h0 : ¬d0 = d := fun hh => h.1 hh.symm
    simp [appendPos, h0, appendPos_not_mem d p rest h.2]

theorem appendPos_last (d : String) (p : Nat) (q : List Nat) :
    ∀ inner : Inner, d ∉ inner.map Prod.fst →
      appendPos (inner ++ [(d, q)]) d p = inner ++ [(d, q ++ [p])]
  | [], _ => by simp [appendPos]
  | (d0, ps0) :: rest, h => by
    simp only [List.map_cons, List.mem_cons] at h
    push_neg at h
    have h0 : ¬d0 = d := fun hh => h.1 hh.symm
    simp [appendPos, h0, appendPos_last d p q rest h.2]

theorem appendMany_from (d : String) :
    ∀ (ps : List Nat) (inner : Inner) (q : List Nat), d ∉ inner.map Prod.fst →
      appendMany (inner ++ [(d, q)]) d ps = inner ++ [(d, q ++ ps)]
  | [], inner, q, _ => by simp [appendMany]
  | p :: rest, inner, q, h => by
    have step : appendMany (inner ++ [(d, q)]) d (p :: rest)
        = appendMany (appendPos (inner ++ [(d, q)]) d p) d rest := rfl
    rw [step, appendPos_last d p q inner h, appendMany_from d rest inner (q ++ [p]) h]
    simp

theorem appendMany_not_mem (d : String) (ps : List Nat) (inner : Inner)
    (h : d ∉ inner.map Prod.fst) (hne : ps ≠ []) :
    appendMany inner d ps = inner ++ [(d, ps)] := by
  cases ps with
  | nil => exact absurd rfl hne
  | cons p rest =>
    have step : appendMany inner d (p :: rest)
        = appendMany (appendPos inner d p) d rest := rfl
    rw [step, appendPos_not_mem d p inner h, appendMany_from d rest inner [p] h]
    simp

theorem lookup_pairsFold (d : String) (w : Nat) :
    ∀ (pairs : List (Nat × Nat)) (inv : Inv),
      (pairs.foldl (fun acc pr => addPair acc pr.1 d pr.2) inv).lookup w
        = (if (pairs.filterMap (fun pr => if pr.1 = w then some pr.2 else none)).isEmpty
           then inv.lookup w
           else some (appendMany ((inv.lookup w).getD []) d
             (pairs.filterMap (fun pr => if pr.1 = w then some pr.2 else none))))
  | [], inv => by simp
  | pr :: rest, inv => by
    rw [List.foldl_cons, lookup_pairsFold d w rest (addPair inv pr.1 d pr.2)]
    by_cases hw : pr.1 = w
    · have hl := lookup_addPair d pr.2 w inv pr.1
      rw [if_pos hw.symm] at hl
      simp only [hw] at hl
      simp only [List.filterMap_cons, hw, ite_true, List.isEmpty_cons,
        Bool.false_eq_true, if_false, hl]
      by_cases hemp :
          (List.filterMap (fun pr => if pr.1 = w then some pr.2 else none) rest).isEmpty
      · rw [if_pos hemp, List.isEmpty_iff.mp hemp]
        rfl
      · rw [if_neg hemp]
        rfl
    · have hl := lookup_addPair d pr.2 w inv pr.1
      rw [if_neg (fun hh => hw hh.symm)] at hl
      simp only [List.filterMap_cons, hw, ite_false, if_false, hl]


theorem lookup_processRecord (r : FwdRecord) (inv : Inv) (w : Nat) :
    (processRecord inv r).lookup w
      = (if (wPositions r w).isEmpty then inv.lookup w
         else some (appendMany ((inv.lookup w).getD []) r.doc (wPositions r w))) :=
  lookup_pairsFold r.doc w r.pairs inv

theorem scanPostings_cons (r : FwdRecord) (rest : List FwdRecord) (w : Nat) :
    scanPostings (r :: rest) w
      = if (wPositions r w).isEmpty then scanPostings rest w
        else (r.doc, wPositions r w) :: scanPostings rest w := by
  simp only [scanPostings, List.filterMap_cons]
  by_cases hemp : (wPositions r w).isEmpty <;> simp [hemp]

theorem scanPostings_append (l1 l2 : List FwdRecord) (w : Nat) :
    scanPostings (l1 ++ l2) w = scanPostings l1 w ++ scanPostings l2 w := by
  simp [scanPostings]

theorem scan_docs_sub (w : Nat) (d : String) :
    ∀ records : List FwdRecord, d ∉ records.map FwdRecord.doc →
      d ∉ (scanPostings records w).map Prod.fst
  | [], _ => by simp [scanPostings]
  | r :: rest, h => by
    simp only [List.map_cons, List.mem_cons] at h
    push_neg at h
    have ih := scan_docs_sub w d rest h.2
    rw [scanPostings_cons]
    by_cases hemp : (wPositions r w).isEmpty
    · simpa [hemp] using ih
    · simp only [hemp, Bool.false_eq_true, if_false, List.map_cons, List.mem_cons]
      push_neg
      exact ⟨h.1, ih⟩

theorem lookup_processAll (w : Nat) (records : List FwdRecord) :
    (records.map FwdRecord.doc).Nodup →
      (processAll records).lookup w
        = (if (scanPostings records w).isEmpty then none
           else some (scanPostings records w)) := by
  induction records using List.reverseRecOn with
  | nil => intro _; simp [processAll, scanPostings, List.lookup]
  | append_singleton rest r ih =>
    intro hnd
    rw [List.map_append, List.nodup_append] at hnd
    obtain ⟨h1, _, hdisj⟩ := hnd
    have hdoc : r.doc ∉ rest.map FwdRecord.doc := fun hmem =>
      hdisj hmem (by simp)
    have hPA : processAll (rest ++ [r]) = processRecord (processAll rest) r := by
      simp [processAll, List.foldl_append, processRecord]
    rw [hPA, lookup_processRecord, ih h1, scanPostings_append]
    by_cases hemp : (wPositions r w).isEmpty
    · rw [if_pos hemp]
      have hz : scanPostings [r] w = [] := by
        rw [scanPostings_cons, if_pos hemp]
        rfl
      rw [hz, List.append_nil]
    · rw [if_neg hemp]
      have hpsne : wPositions r w ≠ [] := fun hnil => hemp (by simp [hnil])
      have hscan1 : scanPostings [r] w = [(r.doc, wPositions r w)] := by
        rw [scanPostings_cons, if_neg hemp]
        rfl
      rw [hscan1]
      by_cases hse : (scanPostings rest w).isEmpty
      · rw [if_pos hse, List.isEmpty_iff.mp hse]
        simp only [Option.getD_none, List.nil_append]
        rw [appendMany_not_mem r.doc (wPositions r w) [] (by simp) hpsne]
        simp
      · rw [if_neg hse]
        simp only [Option.getD_some]
        have hnm : r.doc ∉ (scanPostings rest w).map Prod.fst :=
          scan_docs_sub w r.doc rest hdoc
        rw [appendMany_not_mem r.doc (wPositions r w) (scanPostings rest w) hnm hpsne]
        rw [if_neg (by simp [List.isEmpty_iff])]

/-! ### Key-uniqueness of the in-memory index -/

theorem keys_addPair (d : String) (p : Nat) :
    ∀ (inv : Inv) (w : Nat),
      (addPair inv w d p).map Prod.fst
        = if w ∈ inv.map Prod.fst then inv.map Prod.fst
          else inv.map Prod.fst ++ [w]
  | [], w => by simp [addPair]
  | (w0, inner0) :: rest, w => by
    by_cases h0 : w0 = w
    · simp [addPair, h0]
    · have hne : ¬w = w0 := fun hh => h0 hh.symm
      simp only [addPair, h0, if_false, List.map_cons, keys_addPair d p rest w,
        List.mem_cons, hne, false_or]
      by_cases hmem : w ∈ rest.map Prod.fst <;> simp [hmem]

theorem nodup_keys_addPair (d : String) (p : Nat) (inv : Inv) (w : Nat)
    (h : (inv.map Prod.fst).Nodup) : ((addPair inv w d p).map Prod.fst).Nodup := by
  rw [keys_addPair]
  by_cases hmem : w ∈ inv.map Prod.fst
  · simpa [hmem] using h
  · simp only [hmem, if_false]
    rw [List.nodup_append]
    exact ⟨h, List.nodup_singleton _,
      fun a ha hb => hmem ((List.mem_singleton.mp hb) ▸ ha)⟩

theorem nodup_keys_pairsFold (d : String) :
    ∀ (pairs : List (Nat × Nat)) (inv : Inv), (inv.map Prod.fst).Nodup →
      ((pairs.foldl (fun acc pr => addPair acc pr.1 d pr.2) inv).map Prod.fst).Nodup
  | [], _, h => h
  | pr :: rest, inv, h =>
    nodup_keys_pairsFold d rest (addPair inv pr.1 d pr.2)
      (nodup_keys_addPair d pr.2 inv pr.1 h)

theorem nodup_keys_processAll_go :
    ∀ (records : List FwdRecord) (inv : Inv), (inv.map Prod.fst).Nodup →
      ((records.foldl processRecord inv).map Prod.fst).Nodup
  | [], _, h => h
  | r :: rest, inv, h =>
    nodup_keys_processAll_go rest (processRecord inv r)
      (nodup_keys_pairsFold r.doc r.pairs inv h)

theorem nodup_keys_processAll (records : List FwdRecord) :
    ((processAll records).map Prod.fst).Nodup :=
  nodup_keys_processAll_go records [] (by simp)

/-! ### Barrel distribution lemmas -/

theorem lookup_dictInsert_self (v : Inner) :
    ∀ (dta : List (Nat × Inner)) (w : Nat), (dictInsert dta w v).lookup w = some v
  | [], w => by simp [dictInsert, List.lookup]
  | (w0, v0) :: rest, w => by
    by_cases h0 : w0 = w
    · simp [dictInsert, h0, List.lookup]
    · have hne : ¬w = w0 := fun hh => h0 hh.symm
      have hb : (w == w0) = false := by simp [hne]
      simp [dictInsert, h0, List.lookup, hb, lookup_dictInsert_self v rest w]

theorem lookup_dictInsert_other (v : Inner) (w' : Nat) :
    ∀ (dta : List (Nat × Inner)) (w : Nat), w' ≠ w →
      (dictInsert dta w v).lookup w' = dta.lookup w'
  | [], w, h => by
    have hb : (w' == w) = false := by simp [h]
    simp [dictInsert, List.lookup, hb]
  | (w0, v0) :: rest, w, h => by
    by_cases h0 : w0 = w
    · have hb : (w' == w) = false := by simp [h]
      simp [dictInsert, h0, List.lookup, hb]
    · by_cases h' : w' = w0
      · have hb : (w' == w0) = true := by simp [h']
        simp [dictInsert, h0, List.lookup, hb]
      · have hb : (w' == w0) = false := by simp [h']
        simp [dictInsert, h0, List.lookup, hb,
          lookup_dictInsert_other v w' rest w h]

theorem keys_dictInsert_sub (v : Inner) (x : Nat) :
    ∀ (dta : List (Nat × Inner)) (w : Nat),
      x ∈ (dictInsert dta w v).map Prod.fst → x = w ∨ x ∈ dta.map Prod.fst
  | [], w, h => Or.inl (by simpa [dictInsert] using h)
  | (w0, v0) :: rest, w, h => by
    simp only [dictInsert] at h
    by_cases h0 : w0 = w
    · rw [if_pos h0, List.map_cons] at h
      rcases List.mem_cons.mp h with h1 | h1
      · exact Or.inr (List.mem_cons.mpr (Or.inl h1))
      · exact Or.inr (List.mem_cons.mpr (Or.inr h1))
    · rw [if_neg h0, List.map_cons] at h
      rcases List.mem_cons.mp h with h1 | h1
      · exact Or.inr (List.mem_cons.mpr (Or.inl h1))
      · rcases keys_dictInsert_sub v x rest w h1 with h2 | h2
        · exact Or.inl h2
        · exact Or.inr (List.mem_cons.mpr (Or.inr h2))

theorem barrelIds_cons (b : String × List (Nat × Inner)) (rest : Barrels) :
    barrelIds (b :: rest) = b.2.map Prod.fst ++ barrelIds rest := by
  simp [barrelIds]

theorem recover_cons (b : String × List (Nat × Inner)) (rest : Barrels) (w : Nat) :
    recoverPostings (b :: rest) w
      = (match b.2.lookup w with
         | some v => some v
         | none => recoverPostings rest w) := by
  simp only [recoverPostings, List.findSome?_cons]
  cases b.2.lookup w <;> rfl

theorem barrelIds_insert_sub (n : String) (w' : Nat) (inner : Inner) (x : Nat) :
    ∀ bs : Barrels, x ∈ barrelIds (barrelInsert bs n w' inner) →
      x = w' ∨ x ∈ barrelIds bs
  | [], h => by
    simp only [barrelInsert, barrelIds] at h
    exact Or.inl (by simpa using h)
  | (m, dta) :: rest, h => by
    simp only [barrelInsert] at h
    by_cases hm : m = n
    · rw [if_pos hm, barrelIds_cons] at h
      rcases List.mem_append.mp h with h1 | h1
      · rcases keys_dictInsert_sub inner x dta w' h1 with h2 | h2
        · exact Or.inl h2
        · exact Or.inr (by rw [barrelIds_cons]; exact List.mem_append.mpr (Or.inl h2))
      · exact Or.inr (by rw [barrelIds_cons]; exact List.mem_append.mpr (Or.inr h1))
    · rw [if_neg hm, barrelIds_cons] at h
      rcases List.mem_append.mp h with h1 | h1
      · exact Or.inr (by rw [barrelIds_cons]; exact List.mem_append.mpr (Or.inl h1))
      · rcases barrelIds_insert_sub n w' inner x rest h1 with h2 | h2
        · exact Or.inl h2
        · exact Or.inr (by rw [barrelIds_cons]; exact List.mem_append.mpr (Or.inr h2))

theorem recover_barrelInsert (n : String) (w' : Nat) (inner : Inner) (w : Nat) :
    ∀ bs : Barrels, w' ∉ barrelIds bs →
      recoverPostings (barrelInsert bs n w' inner) w
        = if w = w' then some inner else recoverPostings bs w
  | [], _ => by
    by_cases h : w = w'
    · have hb : (w == w') = true := by simp [h]
      simp [barrelInsert, recoverPostings, List.findSome?_cons, List.lookup, hb, h]
    · have hb : (w == w') = false := by simp [h]
      simp [barrelInsert, recoverPostings, List.findSome?_cons, List.lookup, hb, h]
  | (m, dta) :: rest, h => by
    rw [barrelIds_cons] at h
    have hdta : w' ∉ dta.map Prod.fst := fun hmem => h (List.mem_append.mpr (Or.inl hmem))
    have hrest : w' ∉ barrelIds rest := fun hmem => h (List.mem_append.mpr (Or.inr hmem))
    simp only [barrelInsert]
    by_cases hm : m = n
    · rw [if_pos hm]
      rw [recover_cons ((m, dta) : String × List (Nat × Inner)) rest w]
      rw [recover_cons ((m, dictInsert dta w' inner) : String × List (Nat × Inner)) rest w]
      by_cases hw : w = w'
      · subst hw
        rw [lookup_dictInsert_self, if_pos rfl]
      · rw [lookup_dictInsert_other inner w dta w' hw, if_neg hw]
    · rw [if_neg hm]
      rw [recover_cons ((m, dta) : String × List (Nat × Inner))
        (barrelInsert rest n w' inner) w]
      rw [recover_cons ((m, dta) : String × List (Nat × Inner)) rest w]
      rw [recover_barrelInsert n w' inner w rest hrest]
      by_cases hw : w = w'
      · subst hw
        rw [lookup_not_mem dta w hdta, if_pos rfl]
      · rw [if_neg hw, if_neg hw]

theorem recover_organizeFold (lex : List (String × Nat)) (w : Nat) :
    ∀ (inv : Inv) (bs : Barrels),
      (inv.map Prod.fst).Nodup →
      (∀ k ∈ inv.map Prod.fst, k ∉ barrelIds bs) →
      recoverPostings
          (inv.foldl
            (fun bs wi =>
              match lookupWord lex wi.1 with
              | none => bs
              | some word => barrelInsert bs (getBarrelName word) wi.1 wi.2) bs) w
        = (match inv.lookup w with
           | some inner =>
             if (lookupWord lex w).isSome then some inner else recoverPostings bs w
           | none => recoverPostings bs w)
  | [], bs, _, _ => by simp [List.lookup]
  | (w0, in0) :: rest, bs, hnd, hkeys => by
    rw [List.map_cons] at hnd
    have hnd0 : w0 ∉ rest.map Prod.fst := (List.nodup_cons.mp hnd).1
    have hndr : (rest.map Prod.fst).Nodup := (List.nodup_cons.mp hnd).2
    have hk0 : w0 ∉ barrelIds bs := hkeys w0 (by simp)
    rw [List.foldl_cons]
    cases hres : lookupWord lex w0 with
    | none =>
      have hrec := recover_organizeFold lex w rest bs hndr
        (fun k hk => hkeys k (List.mem_cons.mpr (Or.inr hk)))
      refine hrec.trans ?_
      by_cases hw : w = w0
      · subst hw
        rw [lookup_not_mem rest w hnd0]
        have hb : (w == w) = true := by simp
        simp [List.lookup, hb, hres]
      · have hb : (w == w0) = false := by simp [hw]
        simp [List.lookup, hb]
    | some word =>
      have hkeys' : ∀ k ∈ rest.map Prod.fst,
          k ∉ barrelIds (barrelInsert bs (getBarrelName word) w0 in0) := by
        intro k hk hmem
        rcases barrelIds_insert_sub (getBarrelName word) w0 in0 k bs hmem with h2 | h2
        · exact hnd0 (h2 ▸ hk)
        · exact hkeys k (List.mem_cons.mpr (Or.inr hk)) h2
      have hrec := recover_organizeFold lex w rest
        (barrelInsert bs (getBarrelName word) w0 in0) hndr hkeys'
      refine hrec.trans ?_
      have hbi := recover_barrelInsert (getBarrelName word) w0 in0 w bs hk0
      by_cases hw : w = w0
      · subst hw
        rw [lookup_not_mem rest w hnd0]
        have hb : (w == w) = true := by simp
        simp only [List.lookup, hb, hbi, if_pos rfl, hres, Option.isSome_some, if_true]
      · have hb : (w == w0) = false := by simp [hw]
        simp only [List.lookup, hb, hbi, if_neg hw]

theorem recover_organize (lex : List (String × Nat)) (inv : Inv) (w : Nat)
    (h : (inv.map Prod.fst).Nodup) :
    recoverPostings (organizeBarrels lex inv) w
      = (match inv.lookup w with
         | some inner => if (lookupWord lex w).isSome then some inner else none
         | none => none) := by
  have hfold := recover_organizeFold lex w inv [] h (by simp [barrelIds])
  rw [organizeBarrels, hfold]
  cases List.lookup w inv <;> rfl

theorem recover_filter (w : Nat) :
    ∀ bs : Barrels,
      recoverPostings (bs.filter (fun b => !b.2.isEmpty)) w = recoverPostings bs w
  | [] => rfl
  | (n, dta) :: rest => by
    by_cases hemp : dta.isEmpty
    · have hd : dta = [] := List.isEmpty_iff.mp hemp
      subst hd
      rw [List.filter_cons]
      simp only [List.isEmpty_nil, Bool.not_true, Bool.false_eq_true, if_false]
      rw [recover_filter w rest, recover_cons]
      rfl
    · rw [List.filter_cons]
      have hb : (!dta.isEmpty) = true := by simp [hemp]
      rw [if_pos hb]
      rw [recover_cons ((n, dta) : String × List (Nat × Inner))
        (rest.filter (fun b => !b.2.isEmpty)) w]
      rw [recover_cons ((n, dta) : String × List (Nat × Inner)) rest w]
      rw [recover_filter w rest]

theorem recover_savedBarrels (lex : List (String × Nat)) (inv : Inv) (w : Nat)
    (h : (inv.map Prod.fst).Nodup) :
    recoverPostings (savedBarrels lex inv) w
      = (match inv.lookup w with
         | some inner => if (lookupWord lex w).isSome then some inner else none
         | none => none) := by
  rw [savedBarrels, recover_filter, recover_organize lex inv w h]

theorem scan_ne_nil_of_mem (w : Nat) :
    ∀ records : List FwdRecord,
      (∃ r ∈ records, ∃ pr ∈ r.pairs, pr.1 = w) → scanPostings records w ≠ []
  | [], h => by simp at h
  | r :: rest, h => by
    rw [scanPostings_cons]
    obtain ⟨r0, hr0, pr, hpr, hw⟩ := h
    rcases List.mem_cons.mp hr0 with heq | hmem
    · subst heq
      have hwp : pr.2 ∈ wPositions r0 w := by
        rw [wPositions, List.mem_filterMap]
        exact ⟨pr, hpr, by simp [hw]⟩
      have hemp : ¬(wPositions r0 w).isEmpty = true := by
        intro hh
        rw [List.isEmpty_iff.mp hh] at hwp
        cases hwp
      simp [hemp]
    · have ih := scan_ne_nil_of_mem w rest ⟨r0, hmem, pr, hpr, hw⟩
      by_cases hemp : (wPositions r w).isEmpty <;> simp [hemp, ih]

/-- C1 (amended): for every word id `w` that occurs in some forward-index
record AND resolves in the lexicon, the postings recovered from the barrels for
`w` are exactly the (document, position-list) pairs obtained by scanning all
forward-index records, positions per document in original order. -/
theorem c1_roundtrip_resolved (lex : List (String × Nat)) (records : List FwdRecord)
    (w : Nat) (word : String)
    (hnd : (records.map FwdRecord.doc).Nodup)
    (happ : ∃ r ∈ records, ∃ pr ∈ r.pairs, pr.1 = w)
    (hres : lookupWord lex w = some word) :
    recoverPostings (savedBarrels lex (processAll records)) w
      = some (scanPostings records w) := by
  rw [recover_savedBarrels lex (processAll records) w (nodup_keys_processAll records)]
  rw [lookup_processAll w records hnd]
  have hscan : ¬(scanPostings records w).isEmpty = true := by
    intro hh
    exact scan_ne_nil_of_mem w records happ (List.isEmpty_iff.mp hh)
  rw [if_neg hscan]
  simp [hres]

/-- Witness for C1 (amended) at a two-record corpus and the lexicon
`{"star": 1, "nebula": 2}`. -/
theorem c1_roundtrip_resolved_witness :
    ((([⟨"d1", [(1, 0), (2, 1), (1, 2)]⟩, ⟨"d2", [(2, 0)]⟩] : List FwdRecord).map
        FwdRecord.doc).Nodup ∧
      (∃ r ∈ ([⟨"d1", [(1, 0), (2, 1), (1, 2)]⟩, ⟨"d2", [(2, 0)]⟩] : List FwdRecord),
        ∃ pr ∈ r.pairs, pr.1 = 1) ∧
      lookupWord [("star", 1), ("nebula", 2)] 1 = some "star") ∧
    recoverPostings
        (savedBarrels [("star", 1), ("nebula", 2)]
          (processAll [⟨"d1", [(1, 0), (2, 1), (1, 2)]⟩, ⟨"d2", [(2, 0)]⟩])) 1
      = some (scanPostings [⟨"d1", [(1, 0), (2, 1), (1, 2)]⟩, ⟨"d2", [(2, 0)]⟩] 1) :=
  ⟨⟨by decide, by decide, by decide⟩,
    c1_roundtrip_resolved [("star", 1), ("nebula", 2)]
      [⟨"d1", [(1, 0), (2, 1), (1, 2)]⟩, ⟨"d2", [(2, 0)]⟩] 1 "star"
      (by decide) (by decide) (by decide)⟩

/-- Counterexample to C1 as stated: word id 2 appears in a forward-index
record (and document names are unique), yet the postings recovered from the
barrels for 2 are empty because id 2 has no lexicon entry, while the direct
scan yields `[("doc1", [0])]`. -/
theorem c1_counterexample :
    (∃ r ∈ ([⟨"doc1", [(2, 0)]⟩] : List FwdRecord), ∃ pr ∈ r.pairs, pr.1 = 2) ∧
    (([⟨"doc1", [(2, 0)]⟩] : List FwdRecord).map FwdRecord.doc).Nodup ∧
    recoverPostings (savedBarrels [("star", 1)] (processAll [⟨"doc1", [(2, 0)]⟩])) 2
      ≠ some (scanPostings [⟨"doc1", [(2, 0)]⟩] 2) := by
  refine ⟨by decide, by decide, by decide⟩

/-! ### Counting lemmas -/

theorem innerCount_cons (d : String) (ps : List Nat) (rest : Inner) :
    innerCount ((d, ps) :: rest) = ps.length + innerCount rest := by
  simp [innerCount]

theorem innerCount_appendPos (d : String) (p : Nat) :
    ∀ inner : Inner, innerCount (appendPos inner d p) = innerCount inner + 1
  | [] => by simp [appendPos, innerCount]
  | (d0, ps0) :: rest => by
    by_cases h0 : d0 = d
    · have he : appendPos ((d0, ps0) :: rest) d p = (d0, ps0 ++ [p]) :: rest := by
        simp [appendPos, h0]
      rw [he, innerCount_cons, innerCount_cons]
      simp
      omega
    · have he : appendPos ((d0, ps0) :: rest) d p
          = (d0, ps0) :: appendPos rest d p := by
        simp [appendPos, h0]
      rw [he, innerCount_cons, innerCount_cons, innerCount_appendPos d p rest]
      omega

theorem invResolvedCount_cons (lex : List (String × Nat)) (w : Nat) (inner : Inner)
    (rest : Inv) :
    invResolvedCount lex ((w, inner) :: rest)
      = (if (lookupWord lex w).isSome then innerCount inner else 0)
        + invResolvedCount lex rest := by
  simp [invResolvedCount]

theorem invResolvedCount_addPair (lex : List (String × Nat)) (d : String) (p : Nat) :
    ∀ (inv : Inv) (w : Nat),
      invResolvedCount lex (addPair inv w d p)
        = invResolvedCount lex inv + (if (lookupWord lex w).isSome then 1 else 0)
  | [], w => by
    by_cases hres : (lookupWord lex w).isSome <;>
      simp [addPair, invResolvedCount, innerCount, hres]
  | (w0, in0) :: rest, w => by
    by_cases h0 : w0 = w
    · subst h0
      have he : addPair ((w0, in0) :: rest) w0 d p
          = (w0, appendPos in0 d p) :: rest := by
        simp [addPair]
      rw [he, invResolvedCount_cons, invResolvedCount_cons, innerCount_appendPos]
      by_cases hres : (lookupWord lex w0).isSome <;> · simp [hres]; try omega
    · have he : addPair ((w0, in0) :: rest) w d p
          = (w0, in0) :: addPair rest w d p := by
        simp [addPair, h0]
      rw [he, invResolvedCount_cons, invResolvedCount_cons,
        invResolvedCount_addPair lex d p rest w]
      omega

theorem invResolvedCount_pairsFold (lex : List (String × Nat)) (d : String) :
    ∀ (pairs : List (Nat × Nat)) (inv : Inv),
      invResolvedCount lex (pairs.foldl (fun acc pr => addPair acc pr.1 d pr.2) inv)
        = invResolvedCount lex inv
          + (pairs.filter (fun pr => (lookupWord lex pr.1).isSome)).length
  | [], inv => by simp
  | pr :: rest, inv => by
    rw [List.foldl_cons, invResolvedCount_pairsFold lex d rest _,
      invResolvedCount_addPair lex d pr.2 inv pr.1, List.filter_cons]
    by_cases hres : (lookupWord lex pr.1).isSome = true
    · rw [if_pos hres, if_pos hres, List.length_cons]
      omega
    · rw [if_neg hres, if_neg hres]
      omega

theorem resolvedPairs_cons (lex : List (String × Nat)) (r : FwdRecord)
    (rest : List FwdRecord) :
    resolvedPairs lex (r :: rest) = resolvedPairCount lex r + resolvedPairs lex rest := by
  simp [resolvedPairs]

theorem invResolvedCount_processAll_go (lex : List (String × Nat)) :
    ∀ (records : List FwdRecord) (inv : Inv),
      invResolvedCount lex (records.foldl processRecord inv)
        = invResolvedCount lex inv + resolvedPairs lex records
  | [], inv => by simp [resolvedPairs]
  | r :: rest, inv => by
    rw [List.foldl_cons, invResolvedCount_processAll_go lex rest (processRecord inv r)]
    have hstep : invResolvedCount lex (processRecord inv r)
        = invResolvedCount lex inv + resolvedPairCount lex r :=
      invResolvedCount_pairsFold lex r.doc r.pairs inv
    rw [hstep, resolvedPairs_cons]
    omega

theorem dictInsert_not_mem (v : Inner) :
    ∀ (dta : List (Nat × Inner)) (w : Nat), w ∉ dta.map Prod.fst →
      dictInsert dta w v = dta ++ [(w, v)]
  | [], w, _ => rfl
  | (w0, v0) :: rest, w, h => by
    simp only [List.map_cons, List.mem_cons] at h
    push_neg at h
    have h0 : ¬w0 = w := fun hh => h.1 hh.symm
    simp [dictInsert, h0, dictInsert_not_mem v rest w h.2]

theorem barrelsPosCount_cons (n : String) (dta : List (Nat × Inner)) (rest : Barrels) :
    barrelsPosCount ((n, dta) :: rest)
      = (dta.map (fun wi => innerCount wi.2)).sum + barrelsPosCount rest := by
  simp [barrelsPosCount]

theorem barrelsPosCount_insert (n : String) (w : Nat) (inner : Inner) :
    ∀ bs : Barrels, w ∉ barrelIds bs →
      barrelsPosCount (barrelInsert bs n w inner)
        = barrelsPosCount bs + innerCount inner
  | [], _ => by simp [barrelInsert, barrelsPosCount]
  | (m, dta) :: rest, h => by
    rw [barrelIds_cons] at h
    have hdta : w ∉ dta.map Prod.fst := fun hmem => h (List.mem_append.mpr (Or.inl hmem))
    have hrest : w ∉ barrelIds rest := fun hmem => h (List.mem_append.mpr (Or.inr hmem))
    by_cases hm : m = n
    · have he : barrelInsert ((m, dta) :: rest) n w inner
          = (m, dictInsert dta w inner) :: rest := by
        simp [barrelInsert, hm]
      rw [he, barrelsPosCount_cons, barrelsPosCount_cons,
        dictInsert_not_mem inner dta w hdta]
      simp
      omega
    · have he : barrelInsert ((m, dta) :: rest) n w inner
          = (m, dta) :: barrelInsert rest n w inner := by
        simp [barrelInsert, hm]
      rw [he, barrelsPosCount_cons, barrelsPosCount_cons,
        barrelsPosCount_insert n w inner rest hrest]
      omega

theorem barrelsPosCount_organizeFold (lex : List (String × Nat)) :
    ∀ (inv : Inv) (bs : Barrels),
      (inv.map Prod.fst).Nodup →
      (∀ k ∈ inv.map Prod.fst, k ∉ barrelIds bs) →
      barrelsPosCount
          (inv.foldl
            (fun bs wi =>
              match lookupWord lex wi.1 with
              | none => bs
              | some word => barrelInsert bs (getBarrelName word) wi.1 wi.2) bs)
        = barrelsPosCount bs + invResolvedCount lex inv
  | [], bs, _, _ => by simp [invResolvedCount]
  | (w0, in0) :: rest, bs, hnd, hkeys => by
    rw [List.foldl_cons]
    rw [List.map_cons] at hnd
    have hnd0 : w0 ∉ rest.map Prod.fst := (List.nodup_cons.mp hnd).1
    have hndr : (rest.map Prod.fst).Nodup := (List.nodup_cons.mp hnd).2
    have hk0 : w0 ∉ barrelIds bs := hkeys w0 (by simp)
    cases hres : lookupWord lex w0 with
    | none =>
      have hrec := barrelsPosCount_organizeFold lex rest bs hndr
        (fun k hk => hkeys k (List.mem_cons.mpr (Or.inr hk)))
      refine hrec.trans ?_
      rw [invResolvedCount_cons]
      simp only [hres, Option.isSome_none, Bool.false_eq_true, if_false]
      omega
    | some word =>
      have hkeys' : ∀ k ∈ rest.map Prod.fst,
          k ∉ barrelIds (barrelInsert bs (getBarrelName word) w0 in0) := by
        intro k hk hmem
        rcases barrelIds_insert_sub (getBarrelName word) w0 in0 k bs hmem with h2 | h2
        · exact hnd0 (h2 ▸ hk)
        · exact hkeys k (List.mem_cons.mpr (Or.inr hk)) h2
      have hrec := barrelsPosCount_organizeFold lex rest
        (barrelInsert bs (getBarrelName word) w0 in0) hndr hkeys'
      refine hrec.trans ?_
      rw [barrelsPosCount_insert (getBarrelName word) w0 in0 bs hk0,
        invResolvedCount_cons]
      simp only [hres, Option.isSome_some, if_true]
      omega

theorem barrelsPosCount_filter :
    ∀ bs : Barrels,
      barrelsPosCount (bs.filter (fun b => !b.2.isEmpty)) = barrelsPosCount bs
  | [] => rfl
  | (n, dta) :: rest => by
    rw [List.filter_cons]
    by_cases hemp : dta.isEmpty
    · have hd : dta = [] := List.isEmpty_iff.mp hemp
      subst hd
      simp only [List.isEmpty_nil, Bool.not_true, Bool.false_eq_true, if_false]
      rw [barrelsPosCount_filter rest, barrelsPosCount_cons]
      simp
    · have hb : (!dta.isEmpty) = true := by simp [hemp]
      rw [if_pos hb, barrelsPosCount_cons, barrelsPosCount_cons,
        barrelsPosCount_filter rest]

/-- C6: the total number of forward-index (word_id, position) pairs whose word
id resolves in the lexicon equals the total number of position entries summed
across all persisted barrel files. -/
theorem c6_count_conservation (lex : List (String × Nat)) (records : List FwdRecord) :
    barrelsPosCount (savedBarrels lex (processAll records))
      = resolvedPairs lex records := by
  rw [savedBarrels, barrelsPosCount_filter, organizeBarrels]
  rw [barrelsPosCount_organizeFold lex (processAll records) []
    (nodup_keys_processAll records) (by simp [barrelIds])]
  have h2 : invResolvedCount lex (processAll records) = resolvedPairs lex records := by
    have hgo := invResolvedCount_processAll_go lex records []
    simpa [processAll, invResolvedCount] using hgo
  rw [h2]
  simp [barrelsPosCount]

/-! ### Order independence of barrel contents -/

theorem docPositions_cons (r : FwdRecord) (rest : List FwdRecord) (w : Nat) (d : String) :
    docPositions (r :: rest) w d
      = (if r.doc = d then wPositions r w else []) ++ docPositions rest w d := by
  by_cases hd : r.doc = d <;> simp [docPositions, List.filter_cons, hd]

theorem docPositions_not_mem (w : Nat) (d : String) :
    ∀ records : List FwdRecord, d ∉ records.map FwdRecord.doc →
      docPositions records w d = []
  | [], _ => rfl
  | r :: rest, h => by
    simp only [List.map_cons, List.mem_cons] at h
    push_neg at h
    have hd : ¬r.doc = d := fun hh => h.1 hh.symm
    rw [docPositions_cons, if_neg hd, List.nil_append]
    exact docPositions_not_mem w d rest h.2

theorem lookup_scanPostings (w : Nat) (d : String) :
    ∀ records : List FwdRecord, (records.map FwdRecord.doc).Nodup →
      (scanPostings records w).lookup d
        = if (docPositions records w d).isEmpty then none
          else some (docPositions records w d)
  | [], _ => by simp [scanPostings, docPositions, List.lookup]
  | r :: rest, hnd => by
    rw [List.map_cons] at hnd
    have hnd0 : r.doc ∉ rest.map FwdRecord.doc := (List.nodup_cons.mp hnd).1
    have hndr : (rest.map FwdRecord.doc).Nodup := (List.nodup_cons.mp hnd).2
    rw [scanPostings_cons, docPositions_cons]
    by_cases hd : r.doc = d
    · rw [if_pos hd]
      have hrest0 : docPositions rest w d = [] :=
        docPositions_not_mem w d rest (hd ▸ hnd0)
      rw [hrest0, List.append_nil]
      by_cases hemp : (wPositions r w).isEmpty
      · rw [if_pos hemp,
          lookup_not_mem _ d (scan_docs_sub w d rest (hd ▸ hnd0)),
          List.isEmpty_iff.mp hemp]
        rfl
      · rw [if_neg hemp]
        have hb : (d == r.doc) = true := by simp [hd]
        simp only [List.lookup, hb]
        rw [if_neg hemp]
    · rw [if_neg hd, List.nil_append]
      by_cases hemp : (wPositions r w).isEmpty
      · rw [if_pos hemp]
        exact lookup_scanPostings w d rest hndr
      · rw [if_neg hemp]
        have hdd : ¬d = r.doc := fun hh => hd hh.symm
        have hb : (d == r.doc) = false := by simp [hdd]
        simp only [List.lookup, hb]
        exact lookup_scanPostings w d rest hndr

theorem filter_doc_len_le_one (d : String) :
    ∀ l : List FwdRecord, (l.map FwdRecord.doc).Nodup →
      (l.filter (fun r => r.doc = d)).length ≤ 1
  | [], _ => by simp
  | r :: rest, h => by
    rw [List.map_cons] at h
    have h0 : r.doc ∉ rest.map FwdRecord.doc := (List.nodup_cons.mp h).1
    have hr : (rest.map FwdRecord.doc).Nodup := (List.nodup_cons.mp h).2
    rw [List.filter_cons]
    by_cases hd : r.doc = d
    · have hz : rest.filter (fun r' => r'.doc = d) = [] := by
        rw [List.filter_eq_nil_iff]
        intro x hx
        simp only [decide_eq_true_eq]
        intro hxd
        exact h0 (by
          rw [hd, ← hxd]
          exact List.mem_map.mpr ⟨x, hx, rfl⟩)
      simp [hd, hz]
    · rw [if_neg (by simp [hd])]
      exact filter_doc_len_le_one d rest hr

theorem perm_short_eq {α : Type} {l1 l2 : List α} (hperm : l1.Perm l2)
    (hlen : l1.length ≤ 1) : l1 = l2 := by
  cases l1 with
  | nil => rw [(List.perm_nil.mp hperm.symm)]
  | cons a rest =>
    cases rest with
    | nil => rw [(List.perm_singleton.mp hperm.symm)]
    | cons b rest2 => simp at hlen

theorem docPositions_perm (w : Nat) (d : String) {l1 l2 : List FwdRecord}
    (hperm : l1.Perm l2) (hnd : (l1.map FwdRecord.doc).Nodup) :
    docPositions l1 w d = docPositions l2 w d := by
  have hpf := hperm.filter (fun r => r.doc = d)
  have hlen := filter_doc_len_le_one d l1 hnd
  rw [docPositions, docPositions, perm_short_eq hpf hlen]

theorem docPositions_nil_of_scan_nil (w : Nat) (d : String) :
    ∀ records : List FwdRecord, scanPostings records w = [] →
      docPositions records w d = []
  | [], _ => rfl
  | r :: rest, h => by
    rw [scanPostings_cons] at h
    by_cases hemp : (wPositions r w).isEmpty
    · rw [if_pos hemp] at h
      have hw : wPositions r w = [] := List.isEmpty_iff.mp hemp
      rw [docPositions_cons, docPositions_nil_of_scan_nil w d rest h]
      by_cases hd : r.doc = d <;> simp [hd, hw]
    · rw [if_neg hemp] at h
      exact (List.cons_ne_nil _ _ h).elim

theorem recoveredDocPositions_eq (lex : List (String × Nat)) (records : List FwdRecord)
    (w : Nat) (d : String) (hnd : (records.map FwdRecord.doc).Nodup) :
    recoveredDocPositions lex records w d
      = if (lookupWord lex w).isSome ∧ ¬(docPositions records w d).isEmpty
        then some (docPositions records w d) else none := by
  rw [recoveredDocPositions,
    recover_savedBarrels lex (processAll records) w (nodup_keys_processAll records),
    lookup_processAll w records hnd]
  by_cases hscan : (scanPostings records w).isEmpty
  · rw [if_pos hscan]
    have hdp : docPositions records w d = [] :=
      docPositions_nil_of_scan_nil w d records (List.isEmpty_iff.mp hscan)
    simp [hdp]
  · rw [if_neg hscan]
    cases hres : lookupWord lex w with
    | none => simp [hres]
    | some word =>
      simp only [hres, Option.isSome_some, if_true, Option.some_bind]
      rw [lookup_scanPostings w d records hnd]
      by_cases hdp : (docPositions records w d).isEmpty
      · rw [if_pos hdp, if_neg (fun hc => hc.2 hdp)]
      · rw [if_neg hdp, if_pos ⟨trivial, hdp⟩]

/-- C7: re-running the backward stage on unchanged forward indexes and lexicon
produces identical serialized barrel files, and permuting the processing order
of the forward-index records leaves every recovered per-word per-document
postings list unchanged. -/
theorem c7_idempotent_order_independent (lex : List (String × Nat))
    (l1 l2 : List FwdRecord) (hperm : l1.Perm l2)
    (hnd : (l1.map FwdRecord.doc).Nodup) :
    (∀ l1', l1' = l1 →
      serializeBarrels lex (processAll l1') = serializeBarrels lex (processAll l1)) ∧
    (∀ (w : Nat) (d : String),
      recoveredDocPositions lex l1 w d = recoveredDocPositions lex l2 w d) := by
  refine ⟨fun l1' h => by rw [h], fun w d => ?_⟩
  have hnd2 : (l2.map FwdRecord.doc).Nodup := ((hperm.map FwdRecord.doc).nodup_iff).mp hnd
  rw [recoveredDocPositions_eq lex l1 w d hnd, recoveredDocPositions_eq lex l2 w d hnd2,
    docPositions_perm w d hperm hnd]

/-- Witness for C7 at a two-record corpus processed in both orders. -/
theorem c7_idempotent_order_independent_witness :
    ((([⟨"d1", [(1, 0)]⟩, ⟨"d2", [(2, 0), (1, 1)]⟩] : List FwdRecord)).Perm
        ([⟨"d2", [(2, 0), (1, 1)]⟩, ⟨"d1", [(1, 0)]⟩] : List FwdRecord) ∧
      (([⟨"d1", [(1, 0)]⟩, ⟨"d2", [(2, 0), (1, 1)]⟩] : List FwdRecord).map
        FwdRecord.doc).Nodup) ∧
    ((∀ l1', l1' = ([⟨"d1", [(1, 0)]⟩, ⟨"d2", [(2, 0), (1, 1)]⟩] : List FwdRecord) →
      serializeBarrels [("star", 1), ("nebula", 2)] (processAll l1')
        = serializeBarrels [("star", 1), ("nebula", 2)]
            (processAll [⟨"d1", [(1, 0)]⟩, ⟨"d2", [(2, 0), (1, 1)]⟩])) ∧
    (∀ (w : Nat) (d : String),
      recoveredDocPositions [("star", 1), ("nebula", 2)]
          [⟨"d1", [(1, 0)]⟩, ⟨"d2", [(2, 0), (1, 1)]⟩] w d
        = recoveredDocPositions [("star", 1), ("nebula", 2)]
            [⟨"d2", [(2, 0), (1, 1)]⟩, ⟨"d1", [(1, 0)]⟩] w d)) :=
  ⟨⟨by decide, by decide⟩,
    c7_idempotent_order_independent [("star", 1), ("nebula", 2)]
      [⟨"d1", [(1, 0)]⟩, ⟨"d2", [(2, 0), (1, 1)]⟩]
      [⟨"d2", [(2, 0), (1, 1)]⟩, ⟨"d1", [(1, 0)]⟩]
      (by decide) (by decide)⟩

end DSA
